import Mathlib

/-!
Verification of the key/value parser crate.

The Rust sources embedded here are `src/full_almost_zero_copy.rs`
(the table builder `Parser::new` / `Parser::get` over `StringOrStr`
values, with `parse_one_key_value`, `parse_value`, `quoted_value`,
`unquoted_value`) and `src/zero_parse.rs` (the targeted single-key
lookup `nom_parse` / `parse` with the structural skippers `eat_value`,
`eat_quoted_value`, `eat_unquoted_value`).

Strings are modelled as `List Char` (nom's combinators on `&str`
operate on `char`s).  Each nom combinator used by the crate is given a
direct model: `multispace0` consumes the four ASCII whitespace
characters space, tab, CR, LF; `take_while p` splits at the longest
prefix satisfying `p`; `tag "="` / `tag "\""` consume one expected
character or fail with the `Tag` error kind; `take 1` consumes one
character or fails with the `Eof` error kind.  Loops in the Rust code
are modelled with an explicit fuel parameter so that every definition
is executable; the public wrappers pass fuel larger than the input
length, and every loop iteration consumes at least one character, so
the `Fuel` outcome is unreachable from the wrappers (the theorems
below about an `ok` run are stated for an arbitrary fuel).

The key scanner's character class, Rust `char::is_alphanumeric`, is
Unicode table data rather than an algorithm, so the scanning pipeline
takes it as an explicit parameter `isAlnum : Char → Bool` and every
key-scanning theorem is proved uniformly in it; instantiating
`isAlnum` with the real Unicode predicate yields the statement about
the program.  Concrete runs instantiate it with
`latin1Alphanumeric`, its exact restriction to the Basic Latin and
Latin-1 blocks, on documents drawn from those blocks.
-/

/-- Model of Rust `&str`: a list of characters. -/
abbrev RStr := List Char

/-- The error kinds a parse in this crate can surface: `Tag` from
`tag`, `Eof` from `take`, `Fail` from the explicit key-not-found
error in `nom_parse`, and `Fuel` for the (unreachable) fuel-exhausted
case of the loop models. -/
inductive NomErr where
  | Tag : NomErr
  | Eof : NomErr
  | Fail : NomErr
  | Fuel : NomErr
deriving DecidableEq, Repr

instance {ε α : Type} [DecidableEq ε] [DecidableEq α] :
    DecidableEq (Except ε α) := fun
  | .ok a, .ok b =>
    match decEq a b with
    | isTrue h => isTrue (h ▸ rfl)
    | isFalse h => isFalse (fun hh => h (Except.ok.inj hh))
  | .error a, .error b =>
    match decEq a b with
    | isTrue h => isTrue (h ▸ rfl)
    | isFalse h => isFalse (fun hh => h (Except.error.inj hh))
  | .ok _, .error _ => isFalse (fun hh => Except.noConfusion hh)
  | .error _, .ok _ => isFalse (fun hh => Except.noConfusion hh)

/-- The characters recognised by nom `multispace0`: space, tab,
carriage return and line feed. -/
def isNomMultispace (c : Char) : Bool :=
  c = ' ' || c = '\t' || c = '\n' || c = '\r'

/-- Rust `char::is_whitespace`: the Unicode White_Space code points. -/
def rustIsWhitespace (c : Char) : Bool :=
  let n := c.toNat
  (0x09 ≤ n && n ≤ 0x0D) || n = 0x20 || n = 0x85 || n = 0xA0 ||
  n = 0x1680 || (0x2000 ≤ n && n ≤ 0x200A) || n = 0x2028 || n = 0x2029 ||
  n = 0x202F || n = 0x205F || n = 0x3000

/-- The restriction of Rust `char::is_alphanumeric` (the Unicode
Alphabetic and Number categories) to the Basic Latin and Latin-1
blocks, where it is exact: the ASCII digits and letters plus the
Latin-1 letters, ordinals, superscripts and fractions.  Above U+00FF
the real predicate is pure Unicode table data, so the pipeline below
abstracts it as a parameter `isAlnum` instead of fixing a table; this
instance evaluates the concrete documents of the witnesses and
counterexamples, whose characters all lie in these two blocks. -/
def latin1Alphanumeric (c : Char) : Bool :=
  let n := c.toNat
  (0x30 ≤ n && n ≤ 0x39) || (0x41 ≤ n && n ≤ 0x5A) || (0x61 ≤ n && n ≤ 0x7A) ||
  n = 0xAA || n = 0xB2 || n = 0xB3 || n = 0xB5 || n = 0xB9 || n = 0xBA ||
  n = 0xBC || n = 0xBD || n = 0xBE ||
  (0xC0 ≤ n && n ≤ 0xFF && n ≠ 0xD7 && n ≠ 0xF7)

/-- The key alphabet used by every `take_while` that scans a key:
`c.is_alphanumeric() || c == '-' || c == '_'`, with the Unicode
alphanumeric predicate abstracted as `isAlnum`. -/
def isKeyChar (isAlnum : Char → Bool) (c : Char) : Bool :=
  isAlnum c || c = '-' || c = '_'

/-- Rust `str::trim_start`: drop the longest prefix of Unicode
whitespace. -/
def trimStart (input : RStr) : RStr :=
  input.dropWhile rustIsWhitespace

/-- nom `multispace0`: drop the longest prefix of space/tab/CR/LF
characters; never fails. -/
def multispace0 (input : RStr) : RStr :=
  input.dropWhile isNomMultispace

/-- nom `take_while p`: returns (remaining, taken); never fails. -/
def takeWhileC (p : Char → Bool) (input : RStr) : RStr × RStr :=
  (input.dropWhile p, input.takeWhile p)

/-- nom `tag` for the single-character tags the crate uses: consume
the expected character or fail with the `Tag` error kind. -/
def tagChar (t : Char) (input : RStr) : Except NomErr RStr :=
  match input with
  | c :: rest => if c = t then .ok rest else .error .Tag
  | [] => .error .Tag

/-- nom `take(1usize)` on `&str`: one character, failing with `Eof`
on empty input; returns (remaining, taken). -/
def take1 (input : RStr) : Except NomErr (RStr × Char) :=
  match input with
  | c :: rest => .ok (rest, c)
  | [] => .error .Eof

/-- The crate's value type (`full_almost_zero_copy.rs`):
`String` is the owned (freshly allocated) variant, `Str` the
borrowed zero-copy variant.  Both carry the value text. -/
inductive StringOrStr where
  | String : RStr → StringOrStr
  | Str : RStr → StringOrStr
deriving DecidableEq, Repr

/-- `StringOrStr::as_ref`: the text of either variant. -/
def StringOrStr.asRef : StringOrStr → RStr
  | .String s => s
  | .Str s => s

/-- The loop of `quoted_value`: repeatedly take the run of characters
that are neither backslash nor quote, then inspect the next character;
a quote finishes the value (borrowed if no escape was ever seen, owned
otherwise), a backslash appends the run and the following character to
the lazily created accumulator.  `fuel` bounds the iteration count;
each iteration consumes at least two characters of `head`. -/
def quotedLoop (accum : Option RStr) (head : RStr) (fuel : Nat) :
    Except NomErr (RStr × StringOrStr) :=
  match fuel with
  | 0 => .error .Fuel
  | fuel + 1 =>
    let so_far := head.takeWhile (fun c => c ≠ '\\' && c ≠ '"')
    let rest := head.dropWhile (fun c => c ≠ '\\' && c ≠ '"')
    match rest with
    | [] => .error .Eof
    | bq :: data =>
      if bq = '"' then
        .ok (data,
          match accum with
          | some a => .String (a ++ so_far)
          | none => .Str so_far)
      else
        match data with
        | [] => .error .Eof
        | next :: data2 =>
          quotedLoop (some ((accum.getD []) ++ so_far ++ [next])) data2 fuel

/-- `quoted_value`: consume the opening quote, then run the
escape-aware loop. -/
def quoted_value (input : RStr) : Except NomErr (RStr × StringOrStr) :=
  match tagChar '"' input with
  | .error e => .error e
  | .ok rest => quotedLoop none rest (rest.length + 1)

/-- `unquoted_value`: the run of non-whitespace characters (Rust
`char::is_whitespace`), always a borrowed value; never fails. -/
def unquoted_value (input : RStr) : Except NomErr (RStr × StringOrStr) :=
  let (rest, value) := takeWhileC (fun c => !(rustIsWhitespace c)) input
  .ok (rest, .Str value)

/-- `parse_value`: peek one character (failing with `Eof` on empty
input); a quote dispatches to `quoted_value`, anything else to
`unquoted_value`. -/
def parse_value (input : RStr) : Except NomErr (RStr × StringOrStr) :=
  match take1 input with
  | .error e => .error e
  | .ok (_, peek) =>
    if peek = '"' then quoted_value input else unquoted_value input

/-- `parse_one_key_value` from `full_almost_zero_copy.rs`: whitespace,
key run, whitespace, `=`, whitespace, value, whitespace. -/
def parse_one_key_value (isAlnum : Char → Bool) (input : RStr) :
    Except NomErr (RStr × (RStr × StringOrStr)) :=
  let input := multispace0 input
  let (input, key) := takeWhileC (isKeyChar isAlnum) input
  let input := multispace0 input
  match tagChar '=' input with
  | .error e => .error e
  | .ok input =>
    let input := multispace0 input
    match parse_value input with
    | .error e => .error e
    | .ok (input, value) =>
      let input := multispace0 input
      .ok (input, (key, value))

/-- The hash map of `Parser` modelled as an association list whose
`insert` overwrites in place (`HashMap::insert`); `get` and `len`
observe it exactly as `HashMap` does. -/
abbrev Hmap := List (RStr × StringOrStr)

/-- `HashMap::insert`: overwrite the entry for `k` if present,
otherwise append a new entry. -/
def hmInsert (m : Hmap) (k : RStr) (v : StringOrStr) : Hmap :=
  if m.any (fun p => p.1 == k) then
    m.map (fun p => if p.1 == k then (k, v) else p)
  else
    m ++ [(k, v)]

/-- `HashMap::get`. -/
def hmGet (m : Hmap) (k : RStr) : Option StringOrStr :=
  (m.find? (fun p => p.1 == k)).map (fun p => p.2)

/-- The loop of `Parser::new`: while the head is nonempty, parse one
key/value pair and record it; the list of recorded pairs is returned
in document order. -/
def buildLoop (isAlnum : Char → Bool) (head : RStr) (fuel : Nat) :
    Except NomErr (List (RStr × StringOrStr)) :=
  match fuel with
  | 0 => .error .Fuel
  | fuel + 1 =>
    if head.isEmpty then .ok []
    else
      match parse_one_key_value isAlnum head with
      | .error e => .error e
      | .ok (input, kv) =>
        match buildLoop isAlnum input fuel with
        | .error e => .error e
        | .ok rest => .ok (kv :: rest)

/-- `Parser::new`: trim leading whitespace, run the build loop, and
insert each pair in order into the map. -/
def ParserNew (isAlnum : Char → Bool) (input : RStr) : Except NomErr Hmap :=
  match buildLoop isAlnum (trimStart input) (input.length + 1) with
  | .error e => .error e
  | .ok ps => .ok (ps.foldl (fun m kv => hmInsert m kv.1 kv.2) [])

/-- `Parser::get`: the text of the stored value, if any. -/
def ParserGet (m : Hmap) (k : RStr) : Option RStr :=
  (hmGet m k).map StringOrStr.asRef

/-- `eat_unquoted_value` from `zero_parse.rs`: skip the run of
non-whitespace characters. -/
def eat_unquoted_value (input : RStr) : Except NomErr (RStr × Unit) :=
  let (rest, _) := takeWhileC (fun c => !(rustIsWhitespace c)) input
  .ok (rest, ())

/-- The loop of `eat_quoted_value`: the same traversal as
`quotedLoop` but discarding the scanned text. -/
def eatQuotedLoop (head : RStr) (fuel : Nat) : Except NomErr (RStr × Unit) :=
  match fuel with
  | 0 => .error .Fuel
  | fuel + 1 =>
    let rest := head.dropWhile (fun c => c ≠ '\\' && c ≠ '"')
    match rest with
    | [] => .error .Eof
    | bq :: data =>
      if bq = '"' then .ok (data, ())
      else
        match data with
        | [] => .error .Eof
        | _ :: data2 => eatQuotedLoop data2 fuel

/-- `eat_quoted_value`: consume the opening quote, then skip to the
matching closing quote, escape-aware. -/
def eat_quoted_value (input : RStr) : Except NomErr (RStr × Unit) :=
  match tagChar '"' input with
  | .error e => .error e
  | .ok rest => eatQuotedLoop rest (rest.length + 1)

/-- `eat_value`: peek one character; a quote dispatches to
`eat_quoted_value`, anything else to `eat_unquoted_value`. -/
def eat_value (input : RStr) : Except NomErr (RStr × Unit) :=
  match take1 input with
  | .error e => .error e
  | .ok (_, peek) =>
    if peek = '"' then eat_quoted_value input else eat_unquoted_value input

/-- The loop of `nom_parse` from `zero_parse.rs`: while the head is
nonempty, scan whitespace, key, whitespace and `=`; on the searched
key, read the value with `parse_value` (note: with no whitespace
skipping after the `=`) and return; otherwise skip the value with
`eat_value` and continue.  An empty head yields the explicit `Fail`
error (key not found). -/
def nomLoop (isAlnum : Char → Bool) (head : RStr) (search : RStr)
    (fuel : Nat) : Except NomErr (RStr × StringOrStr) :=
  match fuel with
  | 0 => .error .Fuel
  | fuel + 1 =>
    if head.isEmpty then .error .Fail
    else
      let input := multispace0 head
      let (input, key) := takeWhileC (isKeyChar isAlnum) input
      let input := multispace0 input
      match tagChar '=' input with
      | .error e => .error e
      | .ok input =>
        if key = search then
          match parse_value input with
          | .error e => .error e
          | .ok (_, res) => .ok (input, res)
        else
          match eat_value input with
          | .error e => .error e
          | .ok (input2, _) => nomLoop isAlnum input2 search fuel

/-- `nom_parse`: trim leading whitespace and run the lookup loop. -/
def nom_parse (isAlnum : Char → Bool) (input : RStr) (search : RStr) :
    Except NomErr (RStr × StringOrStr) :=
  nomLoop isAlnum (trimStart input) search (input.length + 1)

/-- The error type of `parse` in `zero_parse.rs`: the `Fail` kind is
reported as key-not-found, every other kind as a parse error. -/
inductive LookupErr where
  | KeyNotFound : LookupErr
  | Other : NomErr → LookupErr
deriving DecidableEq, Repr

/-- `parse` from `zero_parse.rs` (the `lookup_one` operation): run
`nom_parse` and map the error kinds. -/
def parseLookup (isAlnum : Char → Bool) (input : RStr) (search : RStr) :
    Except LookupErr StringOrStr :=
  match nom_parse isAlnum input search with
  | .ok (_, value) => .ok value
  | .error .Fail => .error .KeyNotFound
  | .error e => .error (.Other e)

/-- Whether the head character of the input is one of the four
characters `multispace0` consumes. -/
def headIsNomWs (input : RStr) : Bool :=
  match input with
  | c :: _ => isNomMultispace c
  | [] => false

/-- `parse_one_key_value` restricted to pairs whose `=` is followed
directly by a non-space/tab/CR/LF character (so the `multispace0`
after the `=` consumes nothing); on such pairs it agrees with
`parse_one_key_value`.  Used to state precisely for which documents
the targeted lookup reads values the same way the builder does. -/
def parseOneKeyValueStrict (isAlnum : Char → Bool) (input : RStr) :
    Except NomErr (RStr × (RStr × StringOrStr)) :=
  let input := multispace0 input
  let (input, key) := takeWhileC (isKeyChar isAlnum) input
  let input := multispace0 input
  match tagChar '=' input with
  | .error e => .error e
  | .ok input =>
    if headIsNomWs input then .error .Tag
    else
      match parse_value input with
      | .error e => .error e
      | .ok (input, value) =>
        let input := multispace0 input
        .ok (input, (key, value))

/-- `parseOneKeyValueStrict` without the trailing whitespace skip:
accepts a pair exactly when the document continues right at the end of
the value.  A document accepted by a loop of these pairs has no
whitespace after any `=` and no trailing whitespace. -/
def parseOneKeyValueExact (isAlnum : Char → Bool) (input : RStr) :
    Except NomErr (RStr × (RStr × StringOrStr)) :=
  let input := multispace0 input
  let (input, key) := takeWhileC (isKeyChar isAlnum) input
  let input := multispace0 input
  match tagChar '=' input with
  | .error e => .error e
  | .ok input =>
    if headIsNomWs input then .error .Tag
    else
      match parse_value input with
      | .error e => .error e
      | .ok (input, value) => .ok (input, (key, value))

/-- The build loop over `parseOneKeyValueStrict`. -/
def buildLoopStrict (isAlnum : Char → Bool) (head : RStr) (fuel : Nat) :
    Except NomErr (List (RStr × StringOrStr)) :=
  match fuel with
  | 0 => .error .Fuel
  | fuel + 1 =>
    if head.isEmpty then .ok []
    else
      match parseOneKeyValueStrict isAlnum head with
      | .error e => .error e
      | .ok (input, kv) =>
        match buildLoopStrict isAlnum input fuel with
        | .error e => .error e
        | .ok rest => .ok (kv :: rest)

/-- The build loop over `parseOneKeyValueExact`. -/
def buildLoopExact (isAlnum : Char → Bool) (head : RStr) (fuel : Nat) :
    Except NomErr (List (RStr × StringOrStr)) :=
  match fuel with
  | 0 => .error .Fuel
  | fuel + 1 =>
    if head.isEmpty then .ok []
    else
      match parseOneKeyValueExact isAlnum head with
      | .error e => .error e
      | .ok (input, kv) =>
        match buildLoopExact isAlnum input fuel with
        | .error e => .error e
        | .ok rest => .ok (kv :: rest)

/-- The pair list of a document whose pairs all pass the strict check
(no whitespace directly after any `=`). -/
def strictPairs (isAlnum : Char → Bool) (input : RStr) :
    Except NomErr (List (RStr × StringOrStr)) :=
  buildLoopStrict isAlnum (trimStart input) (input.length + 1)

/-- The pair list of a document whose pairs all pass the exact check
(no whitespace directly after any `=`, no trailing whitespace). -/
def exactPairs (isAlnum : Char → Bool) (input : RStr) :
    Except NomErr (List (RStr × StringOrStr)) :=
  buildLoopExact isAlnum (trimStart input) (input.length + 1)

/-- The pair list read by the builder (`Parser::new` records exactly
these pairs, in document order). -/
def docPairs (isAlnum : Char → Bool) (input : RStr) :
    Except NomErr (List (RStr × StringOrStr)) :=
  buildLoop isAlnum (trimStart input) (input.length + 1)

/-- The value of the first pair with the given key. -/
def firstVal (ps : List (RStr × StringOrStr)) (k : RStr) : Option StringOrStr :=
  (ps.find? (fun p => p.1 == k)).map (fun p => p.2)

/-- The value of the last pair with the given key. -/
def lastVal (ps : List (RStr × StringOrStr)) (k : RStr) : Option StringOrStr :=
  (ps.reverse.find? (fun p => p.1 == k)).map (fun p => p.2)

/-- How many pairs carry the given key. -/
def countKey (ps : List (RStr × StringOrStr)) (k : RStr) : Nat :=
  ps.countP (fun p => p.1 == k)

/-- The view of a value-scan outcome that forgets the borrowed/owned
distinction: the value text and the remaining input on success,
nothing on any error. -/
def viewT (r : Except NomErr (RStr × StringOrStr)) : Option (RStr × RStr) :=
  match r with
  | .ok (rest, v) => some (v.asRef, rest)
  | .error _ => none

/-- Modelled from the spec: the escape grammar of a quoted value body
(everything after the opening quote), read character by character —
a quote closes the value, a backslash contributes exactly the single
following character verbatim, any other character contributes itself;
running out of input yields no value.  Returns the value text and the
input remaining after the closing quote. -/
def quotedSpec : RStr → Option (RStr × RStr)
  | [] => none
  | c :: rest =>
    if c = '"' then some ([], rest)
    else if c = '\\' then
      match rest with
      | [] => none
      | x :: rest2 => (quotedSpec rest2).map (fun p => (x :: p.1, p.2))
    else (quotedSpec rest).map (fun p => (c :: p.1, p.2))

/-- Modelled from the spec: the key alphabet as the spec writes it,
`A` to `Z`, `a` to `z`, `0` to `9`, `-` and `_` only. -/
def specKeyChar (c : Char) : Bool :=
  ('A' ≤ c && c ≤ 'Z') || ('a' ≤ c && c ≤ 'z') || ('0' ≤ c && c ≤ '9') ||
  c = '-' || c = '_'

/-! Basic lemmas about the whitespace and scanning primitives. -/

theorem dropWhile_idem (p : Char → Bool) (l : RStr) :
    (l.dropWhile p).dropWhile p = l.dropWhile p := by
  induction l with
  | nil => rfl
  | cons c l ih =>
    by_cases hc : p c = true
    · simp [List.dropWhile_cons, hc, ih]
    · simp [List.dropWhile_cons, hc]

theorem multispace0_idem (l : RStr) :
    multispace0 (multispace0 l) = multispace0 l :=
  dropWhile_idem isNomMultispace l

theorem multispace0_eq_self (l : RStr) (h : headIsNomWs l = false) :
    multispace0 l = l := by
  cases l with
  | nil => rfl
  | cons c l =>
    simp only [headIsNomWs] at h
    simp [multispace0, List.dropWhile_cons, h]

theorem nomWs_sub_rustWs (c : Char) (h : isNomMultispace c = true) :
    rustIsWhitespace c = true := by
  simp only [isNomMultispace, Bool.or_eq_true, decide_eq_true_eq] at h
  rcases h with ((h | h) | h) | h <;> subst h <;> decide

theorem trimStart_head_not_nomWs (l : RStr) :
    headIsNomWs (trimStart l) = false := by
  induction l with
  | nil => rfl
  | cons c l ih =>
    by_cases hc : rustIsWhitespace c = true
    · simpa [trimStart, List.dropWhile_cons, hc] using ih
    · have hts : trimStart (c :: l) = c :: l := by
        simp [trimStart, List.dropWhile_cons, hc]
      rw [hts]
      simp only [headIsNomWs]
      cases hn : isNomMultispace c
      · rfl
      · exact absurd (nomWs_sub_rustWs c hn) (by simp [hc])

theorem multispace0_trimStart (l : RStr) :
    multispace0 (trimStart l) = trimStart l :=
  multispace0_eq_self _ (trimStart_head_not_nomWs l)

/-! The skip path of the targeted lookup traverses values exactly as
the capturing path does. -/

theorem eatQuotedLoop_eq_quotedLoop (fuel : Nat) :
    ∀ accum head, eatQuotedLoop head fuel =
      (quotedLoop accum head fuel).map (fun p => (p.1, ())) := by
  induction fuel with
  | zero => intro accum head; rfl
  | succ fuel ih =>
    intro accum head
    simp only [eatQuotedLoop, quotedLoop]
    cases hrest : head.dropWhile (fun c => c ≠ '\\' && c ≠ '"') with
    | nil => rfl
    | cons bq data =>
      by_cases hbq : bq = '"'
      · simp [hbq, Except.map]
      · simp only [if_neg hbq]
        cases data with
        | nil => rfl
        | cons next data2 => exact ih _ data2

theorem eat_value_eq_parse_value (input : RStr) :
    eat_value input = (parse_value input).map (fun p => (p.1, ())) := by
  cases input with
  | nil => rfl
  | cons c rest =>
    simp only [eat_value, parse_value, take1]
    by_cases hc : c = '"'
    · simp only [if_pos hc]
      simp only [eat_quoted_value, quoted_value]
      cases htag : tagChar '"' (c :: rest) with
      | error e => rfl
      | ok body => exact eatQuotedLoop_eq_quotedLoop _ none body
    · simp only [if_neg hc]
      rfl

/-! Structure of a successful quoted-value scan. -/

theorem dropWhile_head_false {p : Char → Bool} {l r : RStr} {c : Char}
    (h : l.dropWhile p = c :: r) : p c = false := by
  induction l with
  | nil => simp at h
  | cons a l ih =>
    by_cases ha : p a = true
    · rw [List.dropWhile_cons, if_pos ha] at h
      exact ih h
    · rw [List.dropWhile_cons, if_neg ha] at h
      cases h
      simpa using ha

theorem quotedLoop_some_owned (fuel : Nat) :
    ∀ a head rest v, quotedLoop (some a) head fuel = .ok (rest, v) →
      ∃ s, v = .String s := by
  induction fuel with
  | zero => intro a head rest v h; simp [quotedLoop] at h
  | succ fuel ih =>
    intro a head rest v h
    simp only [quotedLoop] at h
    split at h
    · simp at h
    · split at h
      · simp only [Except.ok.injEq, Prod.mk.injEq] at h
        exact ⟨_, h.2.symm⟩
      · split at h
        · simp at h
        · exact ih _ _ rest v h

theorem quotedLoop_span (fuel : Nat) :
    ∀ a head rest v, quotedLoop a head fuel = .ok (rest, v) →
      ∃ raw, head = raw ++ '"' :: rest := by
  induction fuel with
  | zero => intro a head rest v h; simp [quotedLoop] at h
  | succ fuel ih =>
    intro a head rest v h
    simp only [quotedLoop] at h
    split at h
    · simp at h
    · rename_i bq data heq
      split at h
      · rename_i hbq
        simp only [Except.ok.injEq, Prod.mk.injEq] at h
        refine ⟨head.takeWhile (fun c => c ≠ '\\' && c ≠ '"'), ?_⟩
        conv_lhs => rw [← List.takeWhile_append_dropWhile
          (fun c => c ≠ '\\' && c ≠ '"') head, heq, hbq, h.1]
      · cases data with
        | nil => simp at h
        | cons next data2 =>
          obtain ⟨raw2, hraw2⟩ := ih _ data2 rest v h
          refine ⟨head.takeWhile (fun c => c ≠ '\\' && c ≠ '"') ++
            bq :: next :: raw2, ?_⟩
          conv_lhs => rw [← List.takeWhile_append_dropWhile
            (fun c => c ≠ '\\' && c ≠ '"') head, heq, hraw2]
          simp

theorem quotedLoop_none_borrowed (fuel : Nat) :
    ∀ head rest s, quotedLoop none head fuel = .ok (rest, .Str s) →
      head = s ++ '"' :: rest ∧ ∀ c ∈ s, c ≠ '\\' ∧ c ≠ '"' := by
  intro head rest s h
  cases fuel with
  | zero => simp [quotedLoop] at h
  | succ fuel =>
    simp only [quotedLoop] at h
    split at h
    · simp at h
    · rename_i bq data heq
      split at h
      · rename_i hbq
        simp only [Except.ok.injEq, Prod.mk.injEq, StringOrStr.Str.injEq] at h
        constructor
        · conv_lhs => rw [← List.takeWhile_append_dropWhile
            (fun c => c ≠ '\\' && c ≠ '"') head, heq, hbq, h.1, h.2]
        · intro c hc
          rw [← h.2] at hc
          have := List.mem_takeWhile_imp hc
          simpa using this
      · split at h
        · simp at h
        · obtain ⟨s2, hs2⟩ := quotedLoop_some_owned fuel _ _ rest _ h
          simp at hs2

theorem quotedLoop_none_owned (fuel : Nat) :
    ∀ head rest o, quotedLoop none head fuel = .ok (rest, .String o) →
      ∃ raw, head = raw ++ '"' :: rest ∧ '\\' ∈ raw := by
  intro head rest o h
  cases fuel with
  | zero => simp [quotedLoop] at h
  | succ fuel =>
    simp only [quotedLoop] at h
    split at h
    · simp at h
    · rename_i bq data heq
      split at h
      · simp at h
      · rename_i hbq
        cases data with
        | nil => simp at h
        | cons next data2 =>
          have hbs : bq = '\\' := by
            have := dropWhile_head_false heq
            simp only [Bool.and_eq_false_iff, decide_eq_false_iff_not,
              not_not] at this
            rcases this with h1 | h1
            · exact h1
            · exact absurd h1 hbq
          obtain ⟨raw2, hraw2⟩ := quotedLoop_span fuel _ data2 rest _ h
          refine ⟨head.takeWhile (fun c => c ≠ '\\' && c ≠ '"') ++
            bq :: next :: raw2, ?_, ?_⟩
          · conv_lhs => rw [← List.takeWhile_append_dropWhile
              (fun c => c ≠ '\\' && c ≠ '"') head, heq, hraw2]
            simp
          · subst hbs
            simp

/-! The quoted scanner implements exactly the per-character escape
grammar `quotedSpec`. -/

theorem quotedLoop_accum_prefix (fuel : Nat) :
    ∀ head a p, viewT (quotedLoop (some (p ++ a)) head fuel) =
      (viewT (quotedLoop (some a) head fuel)).map
        (fun q => (p ++ q.1, q.2)) := by
  induction fuel with
  | zero => intro head a p; rfl
  | succ fuel ih =>
    intro head a p
    simp only [quotedLoop]
    cases hrest : head.dropWhile (fun c => c ≠ '\\' && c ≠ '"') with
    | nil => rfl
    | cons bq data =>
      by_cases hbq : bq = '"'
      · simp [hbq, viewT, StringOrStr.asRef, List.append_assoc]
      · simp only [if_neg hbq]
        cases data with
        | nil => rfl
        | cons next data2 =>
          have hassoc :
              p ++ a ++ head.takeWhile (fun c => c ≠ '\\' && c ≠ '"') ++
                [next] =
              p ++ (a ++ head.takeWhile (fun c => c ≠ '\\' && c ≠ '"') ++
                [next]) := by
            simp [List.append_assoc]
          simp only [Option.getD_some]
          rw [hassoc]
          exact ih data2 _ p

theorem quotedLoop_some_nil (fuel : Nat) :
    ∀ head, viewT (quotedLoop (some []) head fuel) =
      viewT (quotedLoop none head fuel) := by
  induction fuel with
  | zero => intro head; rfl
  | succ fuel ih =>
    intro head
    simp only [quotedLoop]
    cases hrest : head.dropWhile (fun c => c ≠ '\\' && c ≠ '"') with
    | nil => rfl
    | cons bq data =>
      by_cases hbq : bq = '"'
      · simp [hbq, viewT, StringOrStr.asRef]
      · simp only [if_neg hbq]
        cases data with
        | nil => rfl
        | cons next data2 => simp only [Option.getD_some, Option.getD_none]

theorem quotedLoop_step_char (fuel : Nat) (c : Char) (r : RStr)
    (hq : c ≠ '"') (hb : c ≠ '\\') :
    viewT (quotedLoop none (c :: r) (fuel + 1)) =
      (viewT (quotedLoop none r (fuel + 1))).map
        (fun q => (c :: q.1, q.2)) := by
  have hpc : (fun x => x ≠ '\\' && x ≠ '"') c = true := by
    simp [hb, hq]
  simp only [quotedLoop, List.takeWhile_cons, List.dropWhile_cons, hpc,
    if_pos]
  cases hrest : r.dropWhile (fun x => x ≠ '\\' && x ≠ '"') with
  | nil => rfl
  | cons bq data =>
    by_cases hbq : bq = '"'
    · simp [hbq, viewT, StringOrStr.asRef]
    · simp only [if_neg hbq]
      cases data with
      | nil => rfl
      | cons next data2 =>
        simp only [Option.getD_none, List.nil_append]
        have hsplit :
            (c :: r.takeWhile (fun x => x ≠ '\\' && x ≠ '"')) ++ [next] =
            [c] ++ (r.takeWhile (fun x => x ≠ '\\' && x ≠ '"') ++ [next]) := by
          simp
        rw [hsplit, quotedLoop_accum_prefix fuel data2 _ [c]]
        have hfun : (fun q : RStr × RStr => ([c] ++ q.1, q.2)) =
            (fun q : RStr × RStr => (c :: q.1, q.2)) := by
          funext q
          simp
        rw [hfun]

theorem quotedSpec_quote (r : RStr) : quotedSpec ('"' :: r) = some ([], r) := by
  rw [quotedSpec.eq_def]
  simp

theorem quotedSpec_backslash (x : Char) (r2 : RStr) :
    quotedSpec ('\\' :: x :: r2) =
      (quotedSpec r2).map (fun p => (x :: p.1, p.2)) := by
  rw [quotedSpec.eq_def]
  simp

theorem quotedSpec_backslash_nil : quotedSpec ['\\'] = none := by
  rw [quotedSpec.eq_def]
  simp

theorem quotedSpec_other (c : Char) (r : RStr) (hq : ¬ c = '"')
    (hb : ¬ c = '\\') :
    quotedSpec (c :: r) = (quotedSpec r).map (fun p => (c :: p.1, p.2)) := by
  conv_lhs => rw [quotedSpec.eq_def]
  simp only []
  rw [if_neg hq, if_neg hb]

theorem quotedLoop_eq_quotedSpec (n : Nat) :
    ∀ head : RStr, head.length ≤ n → ∀ fuel, head.length < fuel →
      viewT (quotedLoop none head fuel) = quotedSpec head := by
  induction n with
  | zero =>
    intro head hlen fuel hfuel
    have : head = [] := List.length_eq_zero.mp (Nat.le_zero.mp hlen)
    subst this
    cases fuel with
    | zero => simp at hfuel
    | succ fuel => rfl
  | succ n ih =>
    intro head hlen fuel hfuel
    cases head with
    | nil =>
      cases fuel with
      | zero => simp at hfuel
      | succ fuel => rfl
    | cons c r =>
      cases fuel with
      | zero => simp at hfuel
      | succ fuel =>
        by_cases hq : c = '"'
        · subst hq
          simp only [quotedLoop, List.takeWhile_cons, List.dropWhile_cons]
          norm_num
          rw [quotedSpec_quote]
          rfl
        · by_cases hb : c = '\\'
          · subst hb
            cases r with
            | nil =>
              simp only [quotedLoop, List.takeWhile_cons,
                List.dropWhile_cons]
              norm_num
              rw [quotedSpec_backslash_nil]
              rfl
            | cons x r2 =>
              simp only [quotedLoop, List.takeWhile_cons,
                List.dropWhile_cons]
              norm_num
              have hr2 : r2.length ≤ n := by
                simp only [List.length_cons] at hlen
                omega
              have hr2f : r2.length < fuel := by
                simp only [List.length_cons] at hfuel
                omega
              rw [if_neg hq,
                show ([x] : RStr) = [x] ++ [] from by simp,
                quotedLoop_accum_prefix fuel r2 [] [x],
                quotedLoop_some_nil fuel r2,
                ih r2 hr2 fuel hr2f, quotedSpec_backslash]
              cases quotedSpec r2 with
              | none => rfl
              | some q => rfl
          · rw [quotedLoop_step_char fuel c r hq hb]
            have hr : r.length ≤ n := by
              simp only [List.length_cons] at hlen
              omega
            have hrf : r.length < fuel + 1 := by
              simp only [List.length_cons] at hfuel
              omega
            rw [ih r hr (fuel + 1) hrf, quotedSpec_other c r hq hb]

/-! Unterminated quoted values: when the escape grammar accepts no
prefix of the body, the scanner fails with the `Eof` error. -/

theorem quotedSpec_run (w : RStr) :
    ∀ t, (∀ c ∈ w, c ≠ '\\' ∧ c ≠ '"') →
      quotedSpec (w ++ t) = (quotedSpec t).map (fun p => (w ++ p.1, p.2)) := by
  induction w with
  | nil =>
    intro t _
    simp only [List.nil_append]
    cases quotedSpec t with
    | none => rfl
    | some q => rfl
  | cons c w ih =>
    intro t hmem
    have hc := hmem c (List.mem_cons_self c w)
    rw [List.cons_append, quotedSpec_other c _ hc.2 hc.1,
      ih t (fun x hx => hmem x (List.mem_cons_of_mem c hx))]
    cases quotedSpec t with
    | none => rfl
    | some q => rfl

theorem quotedLoop_unterminated (n : Nat) :
    ∀ (head : RStr) (fuel : Nat) (a : Option RStr), head.length ≤ n →
      head.length < fuel → quotedSpec head = none →
      quotedLoop a head fuel = .error .Eof := by
  induction n with
  | zero =>
    intro head fuel a hlen hfuel hspec
    have : head = [] := List.length_eq_zero.mp (Nat.le_zero.mp hlen)
    subst this
    cases fuel with
    | zero => simp at hfuel
    | succ fuel => rfl
  | succ n ih =>
    intro head fuel a hlen hfuel hspec
    cases fuel with
    | zero => simp at hfuel
    | succ fuel =>
      simp only [quotedLoop]
      cases hrest : head.dropWhile (fun c => c ≠ '\\' && c ≠ '"') with
      | nil => rfl
      | cons bq data =>
        have hmem : ∀ c ∈ head.takeWhile (fun c => c ≠ '\\' && c ≠ '"'),
            c ≠ '\\' ∧ c ≠ '"' := by
          intro c hc
          have := List.mem_takeWhile_imp hc
          simpa using this
        by_cases hbq : bq = '"'
        · exfalso
          have hdecomp : head =
              head.takeWhile (fun c => c ≠ '\\' && c ≠ '"') ++ '"' :: data := by
            conv_lhs => rw [← List.takeWhile_append_dropWhile
              (fun c => c ≠ '\\' && c ≠ '"') head, hrest, hbq]
          rw [hdecomp, quotedSpec_run _ _ hmem, quotedSpec_quote] at hspec
          simp at hspec
        · simp only [if_neg hbq]
          have hbs : bq = '\\' := by
            have := dropWhile_head_false hrest
            simp only [Bool.and_eq_false_iff, decide_eq_false_iff_not,
              not_not] at this
            rcases this with h1 | h1
            · exact h1
            · exact absurd h1 hbq
          cases data with
          | nil => rfl
          | cons next data2 =>
            have hdecomp : head =
                head.takeWhile (fun c => c ≠ '\\' && c ≠ '"') ++
                  '\\' :: next :: data2 := by
              conv_lhs => rw [← List.takeWhile_append_dropWhile
                (fun c => c ≠ '\\' && c ≠ '"') head, hrest, hbs]
            have hlen2 : head.length =
                (head.takeWhile (fun c => c ≠ '\\' && c ≠ '"')).length +
                  (2 + data2.length) := by
              conv_lhs => rw [hdecomp]
              simp only [List.length_append, List.length_cons]
              omega
            have hspec2 : quotedSpec data2 = none := by
              rw [hdecomp, quotedSpec_run _ _ hmem,
                quotedSpec_backslash] at hspec
              cases hq2 : quotedSpec data2 with
              | none => rfl
              | some q => rw [hq2] at hspec; simp at hspec
            exact ih data2 fuel _ (by omega) (by omega) hspec2

/-! The map model: insertion overwrites, lookup sees the latest
binding, so a left fold of insertions realises last-write-wins. -/

theorem find?_replace_eq {m : Hmap} {k : RStr} {v : StringOrStr}
    (hany : m.any (fun p => p.1 == k) = true) :
    (m.map (fun p => if p.1 == k then (k, v) else p)).find?
      (fun p => p.1 == k) = some (k, v) := by
  induction m with
  | nil => simp at hany
  | cons q m ih =>
    by_cases hq : (q.1 == k) = true
    · rw [List.map_cons, if_pos hq, List.find?_cons]
      have hkk : (((k, v) : RStr × StringOrStr).1 == k) = true := by simp
      rw [hkk]
    · have hq2 : (q.1 == k) = false := by
        simpa using hq
      simp only [List.any_cons, hq2, Bool.false_or] at hany
      rw [List.map_cons, if_neg hq, List.find?_cons, hq2]
      exact ih hany

theorem find?_replace_ne {m : Hmap} {k k2 : RStr} {v : StringOrStr}
    (hne : ¬ k2 = k) :
    (m.map (fun p => if p.1 == k then (k, v) else p)).find?
      (fun p => p.1 == k2) = m.find? (fun p => p.1 == k2) := by
  induction m with
  | nil => rfl
  | cons q m ih =>
    by_cases hq : (q.1 == k) = true
    · have hqk : q.1 = k := by simpa using hq
      have h1 : (((k, v) : RStr × StringOrStr).1 == k2) = false := by
        simp only [beq_eq_false_iff_ne, ne_eq]
        intro hkk
        exact hne hkk.symm
      have h2 : (q.1 == k2) = false := by
        simp only [hqk, beq_eq_false_iff_ne, ne_eq]
        intro hkk
        exact hne hkk.symm
      rw [List.map_cons, if_pos hq, List.find?_cons, h1, List.find?_cons, h2]
      exact ih
    · rw [List.map_cons, if_neg hq, List.find?_cons, List.find?_cons]
      cases hq2 : (q.1 == k2)
      · exact ih
      · rfl

theorem hmGet_insert (m : Hmap) (k k2 : RStr) (v : StringOrStr) :
    hmGet (hmInsert m k v) k2 = if k2 = k then some v else hmGet m k2 := by
  by_cases hk2 : k2 = k
  · subst hk2
    rw [if_pos rfl]
    unfold hmInsert hmGet
    by_cases hany : m.any (fun p => p.1 == k2) = true
    · rw [if_pos hany, find?_replace_eq hany]
      rfl
    · rw [if_neg hany, List.find?_append]
      have hnone : m.find? (fun p => p.1 == k2) = none := by
        rw [List.find?_eq_none]
        intro x hx hpx
        exact hany (List.any_of_mem hx hpx)
      rw [hnone, Option.none_or, List.find?_cons]
      have hkk : (((k2, v) : RStr × StringOrStr).1 == k2) = true := by simp
      rw [hkk]
      rfl
  · rw [if_neg hk2]
    unfold hmInsert hmGet
    by_cases hany : m.any (fun p => p.1 == k) = true
    · rw [if_pos hany, find?_replace_ne hk2]
    · rw [if_neg hany, List.find?_append]
      have hone : ([(k, v)] : Hmap).find? (fun p => p.1 == k2) = none := by
        rw [List.find?_cons]
        have hkk : (((k, v) : RStr × StringOrStr).1 == k2) = false := by
          simp only [beq_eq_false_iff_ne, ne_eq]
          intro hkk
          exact hk2 hkk.symm
        rw [hkk]
        rfl
      rw [hone, Option.or_none]

theorem hmGet_foldl (ps : List (RStr × StringOrStr)) :
    ∀ (m0 : Hmap) (k : RStr),
      hmGet (ps.foldl (fun m kv => hmInsert m kv.1 kv.2) m0) k =
        (lastVal ps k).or (hmGet m0 k) := by
  induction ps with
  | nil =>
    intro m0 k
    simp [lastVal]
  | cons p ps ih =>
    intro m0 k
    rw [List.foldl_cons, ih]
    have hlast : lastVal (p :: ps) k =
        (lastVal ps k).or (if p.1 == k then some p.2 else none) := by
      unfold lastVal
      rw [List.reverse_cons, List.find?_append]
      cases hps : ps.reverse.find? (fun q => q.1 == k) with
      | some q => rfl
      | none =>
        simp only [Option.none_or, List.find?_cons]
        cases hp : (p.1 == k) with
        | false =>
          rw [if_neg Bool.false_ne_true]
          rfl
        | true =>
          rw [if_pos rfl]
          rfl
    rw [hlast, hmGet_insert]
    cases hps : lastVal ps k with
    | some q => rfl
    | none =>
      simp only [Option.none_or]
      cases hp : (p.1 == k) with
      | false =>
        have hne : ¬ k = p.1 := by
          intro hkk
          subst hkk
          simp at hp
        rw [if_neg hne, if_neg Bool.false_ne_true, Option.none_or]
      | true =>
        have heq : k = p.1 := by
          have hh : p.1 = k := by simpa using hp
          exact hh.symm
        rw [if_pos heq, if_pos rfl]
        rfl

/-! First and last occurrences coincide for a key bound exactly once. -/

theorem firstVal_eq_none_of_countKey_zero (ps : List (RStr × StringOrStr))
    (k : RStr) (h : countKey ps k = 0) :
    ps.find? (fun p => p.1 == k) = none := by
  rw [List.find?_eq_none]
  intro x hx
  exact (List.countP_eq_zero.mp h) x hx

theorem lastVal_eq_firstVal_of_countKey_one (ps : List (RStr × StringOrStr))
    (k : RStr) (h : countKey ps k = 1) :
    lastVal ps k = firstVal ps k := by
  induction ps with
  | nil => rfl
  | cons p ps ih =>
    unfold countKey at h
    rw [List.countP_cons] at h
    cases hp : (p.1 == k) with
    | true =>
      rw [hp] at h
      rw [if_pos rfl] at h
      have hzero : countKey ps k = 0 := by
        unfold countKey
        omega
      have hnone : ps.find? (fun q => q.1 == k) = none :=
        firstVal_eq_none_of_countKey_zero ps k hzero
      have hrevnone : ps.reverse.find? (fun q => q.1 == k) = none := by
        rw [List.find?_eq_none]
        intro x hx
        exact (List.find?_eq_none.mp hnone) x (List.mem_reverse.mp hx)
      unfold lastVal firstVal
      rw [List.reverse_cons, List.find?_append, hrevnone, Option.none_or]
      have hfp : List.find? (fun q => q.1 == k) [p] = some p := by
        rw [List.find?_cons, hp]
      have hcons : List.find? (fun q => q.1 == k) (p :: ps) = some p := by
        rw [List.find?_cons, hp]
      rw [hfp, hcons]
    | false =>
      rw [hp] at h
      rw [if_neg Bool.false_ne_true] at h
      have h1 : countKey ps k = 1 := by
        unfold countKey
        omega
      unfold lastVal firstVal
      rw [List.reverse_cons, List.find?_append]
      have hone : List.find? (fun q => q.1 == k) [p] = none := by
        rw [List.find?_cons, hp]
        rfl
      have hcons : List.find? (fun q => q.1 == k) (p :: ps) =
          List.find? (fun q => q.1 == k) ps := by
        rw [List.find?_cons, hp]
      rw [hone, Option.or_none, hcons]
      exact ih h1

/-! The key is always the longest prefix of key-alphabet characters at
the pair position, in the builder and in the lookup alike. -/

theorem parse_one_key_value_key (isAlnum : Char → Bool) (input r : RStr)
    (kv : RStr × StringOrStr)
    (h : parse_one_key_value isAlnum input = .ok (r, kv)) :
    kv.1 = (multispace0 input).takeWhile (isKeyChar isAlnum) ∧
      ∀ c ∈ kv.1, isKeyChar isAlnum c = true := by
  simp only [parse_one_key_value, takeWhileC] at h
  split at h
  · simp at h
  · split at h
    · simp at h
    · simp only [Except.ok.injEq, Prod.mk.injEq] at h
      have hkey : kv.1 =
          (multispace0 input).takeWhile (isKeyChar isAlnum) := by
        rw [← h.2]
      refine ⟨hkey, ?_⟩
      intro c hc
      rw [hkey] at hc
      exact List.mem_takeWhile_imp hc

/-! Documents with no whitespace directly after `=` parse the same way
under the strict pair parser as under the real one; dropping the
trailing whitespace skip changes only where the next pair starts. -/

theorem strict_pair_sound (isAlnum : Char → Bool) (i : RStr)
    (x : RStr × (RStr × StringOrStr))
    (h : parseOneKeyValueStrict isAlnum i = .ok x) :
    parse_one_key_value isAlnum i = .ok x := by
  simp only [parseOneKeyValueStrict, takeWhileC] at h
  simp only [parse_one_key_value, takeWhileC]
  split at h
  · simp at h
  · rename_i i2 htag
    split at h
    · simp at h
    · rename_i hws
      have hmulti : multispace0 i2 = i2 :=
        multispace0_eq_self i2 (by simpa using hws)
      split at h
      · simp at h
      · rename_i i3 value hval
        simp only [htag, hmulti, hval]
        exact h

theorem exact_pair_strict (isAlnum : Char → Bool) (i : RStr) (r : RStr)
    (kv : RStr × StringOrStr)
    (h : parseOneKeyValueExact isAlnum i = .ok (r, kv)) :
    parseOneKeyValueStrict isAlnum i = .ok (multispace0 r, kv) := by
  simp only [parseOneKeyValueExact, takeWhileC] at h
  simp only [parseOneKeyValueStrict, takeWhileC]
  split at h
  · simp at h
  · rename_i i2 htag
    split at h
    · simp at h
    · rename_i hws
      split at h
      · simp at h
      · rename_i i3 value hval
        simp only [Except.ok.injEq, Prod.mk.injEq] at h
        simp only [htag, if_neg hws, hval]
        rw [h.1, h.2]

theorem pairStrict_ms (isAlnum : Char → Bool) (head : RStr) :
    parseOneKeyValueStrict isAlnum (multispace0 head) =
      parseOneKeyValueStrict isAlnum head := by
  simp only [parseOneKeyValueStrict, takeWhileC, multispace0_idem]

theorem pairExact_ms_ne_nil {isAlnum : Char → Bool} {head : RStr}
    {x : RStr × (RStr × StringOrStr)}
    (h : parseOneKeyValueExact isAlnum head = .ok x) :
    multispace0 head ≠ [] := by
  intro hnil
  simp only [multispace0] at hnil
  simp only [parseOneKeyValueExact, takeWhileC, multispace0, hnil,
    List.dropWhile_nil, List.takeWhile_nil, tagChar] at h
  simp at h

theorem pairStrict_ne_nil {isAlnum : Char → Bool} {head : RStr}
    {x : RStr × (RStr × StringOrStr)}
    (h : parseOneKeyValueStrict isAlnum head = .ok x) :
    multispace0 head ≠ [] := by
  intro hnil
  simp only [multispace0] at hnil
  simp only [parseOneKeyValueStrict, takeWhileC, multispace0, hnil,
    List.dropWhile_nil, List.takeWhile_nil, tagChar] at h
  simp at h

theorem buildLoopStrict_to_buildLoop (isAlnum : Char → Bool) (fuel : Nat) :
    ∀ head ps, buildLoopStrict isAlnum head fuel = .ok ps →
      buildLoop isAlnum head fuel = .ok ps := by
  induction fuel with
  | zero => intro head ps h; simp [buildLoopStrict] at h
  | succ fuel ih =>
    intro head ps h
    simp only [buildLoopStrict] at h
    simp only [buildLoop]
    by_cases hemp : head.isEmpty = true
    · rw [if_pos hemp] at h
      rw [if_pos hemp]
      exact h
    · rw [if_neg hemp] at h
      rw [if_neg hemp]
      split at h
      · simp at h
      · rename_i inp kv hpair
        split at h
        · simp at h
        · rename_i tl hrec
          have hp2 := strict_pair_sound isAlnum head (inp, kv) hpair
          have hb2 := ih inp tl hrec
          simp only [hp2, hb2]
          exact h

theorem buildLoopExact_to_strict (isAlnum : Char → Bool) (fuel : Nat) :
    ∀ head ps, buildLoopExact isAlnum head fuel = .ok ps →
      buildLoopStrict isAlnum (multispace0 head) fuel = .ok ps := by
  induction fuel with
  | zero => intro head ps h; simp [buildLoopExact] at h
  | succ fuel ih =>
    intro head ps h
    simp only [buildLoopExact] at h
    by_cases hemp : head.isEmpty = true
    · rw [if_pos hemp] at h
      have hnil : head = [] := by
        cases head
        · rfl
        · simp at hemp
      subst hnil
      simp only [buildLoopStrict, multispace0, List.dropWhile_nil]
      exact h
    · rw [if_neg hemp] at h
      split at h
      · simp at h
      · rename_i inp kv hpair
        split at h
        · simp at h
        · rename_i tl hrec
          have hne := pairExact_ms_ne_nil hpair
          have hmse : (multispace0 head).isEmpty = false := by
            cases hms : multispace0 head
            · exact absurd hms hne
            · rfl
          have hp2 : parseOneKeyValueStrict isAlnum (multispace0 head) =
              .ok (multispace0 inp, kv) := by
            rw [pairStrict_ms isAlnum head]
            exact exact_pair_strict isAlnum head inp kv hpair
          have hb2 := ih inp tl hrec
          simp only [buildLoopStrict, hmse, Bool.false_eq_true,
            if_false, hp2, hb2]
          exact h

theorem nomLoop_ms (isAlnum : Char → Bool) (fuel : Nat) (k head : RStr)
    (hne : multispace0 head ≠ []) :
    nomLoop isAlnum head k fuel =
      nomLoop isAlnum (multispace0 head) k fuel := by
  cases fuel with
  | zero => rfl
  | succ fuel =>
    have h1 : head.isEmpty = false := by
      cases head
      · simp [multispace0] at hne
      · rfl
    have h2 : (multispace0 head).isEmpty = false := by
      cases hms : multispace0 head
      · exact absurd hms hne
      · rfl
    simp only [nomLoop, h1, h2, Bool.false_eq_true, if_false,
      multispace0_idem]

theorem buildLoop_keys (isAlnum : Char → Bool) (fuel : Nat) :
    ∀ head ps, buildLoop isAlnum head fuel = .ok ps →
      ∀ p ∈ ps, ∀ c ∈ p.1, isKeyChar isAlnum c = true := by
  induction fuel with
  | zero => intro head ps h; simp [buildLoop] at h
  | succ fuel ih =>
    intro head ps h
    simp only [buildLoop] at h
    by_cases hemp : head.isEmpty = true
    · rw [if_pos hemp] at h
      simp only [Except.ok.injEq] at h
      subst h
      intro p hp
      simp at hp
    · rw [if_neg hemp] at h
      split at h
      · simp at h
      · rename_i inp kv hpair
        split at h
        · simp at h
        · rename_i tl hrec
          simp only [Except.ok.injEq] at h
          subst h
          intro p hp
          rcases List.mem_cons.mp hp with hp1 | hp2
          · subst hp1
            exact (parse_one_key_value_key isAlnum head inp p hpair).2
          · exact ih inp tl hrec p hp2

/-! Decomposition of a successful strict/exact pair parse into the
exact steps the targeted lookup also performs. -/

theorem pairExact_elim {isAlnum : Char → Bool} {head r : RStr}
    {kv : RStr × StringOrStr}
    (h : parseOneKeyValueExact isAlnum head = .ok (r, kv)) :
    ∃ i3, tagChar '='
        (multispace0 ((multispace0 head).dropWhile (isKeyChar isAlnum))) =
          .ok i3 ∧
      headIsNomWs i3 = false ∧
      parse_value i3 = .ok (r, kv.2) ∧
      kv.1 = (multispace0 head).takeWhile (isKeyChar isAlnum) := by
  simp only [parseOneKeyValueExact, takeWhileC] at h
  split at h
  · simp at h
  · rename_i i3 htag
    split at h
    · simp at h
    · rename_i hws
      split at h
      · simp at h
      · rename_i inp value hval
        simp only [Except.ok.injEq, Prod.mk.injEq] at h
        refine ⟨i3, htag, by simpa using hws, ?_, ?_⟩
        · rw [hval, h.1, ← h.2]
        · rw [← h.2]

theorem pairStrict_elim {isAlnum : Char → Bool} {head r : RStr}
    {kv : RStr × StringOrStr}
    (h : parseOneKeyValueStrict isAlnum head = .ok (r, kv)) :
    ∃ i3 i4, tagChar '='
        (multispace0 ((multispace0 head).dropWhile (isKeyChar isAlnum))) =
          .ok i3 ∧
      headIsNomWs i3 = false ∧
      parse_value i3 = .ok (i4, kv.2) ∧
      r = multispace0 i4 ∧
      kv.1 = (multispace0 head).takeWhile (isKeyChar isAlnum) := by
  simp only [parseOneKeyValueStrict, takeWhileC] at h
  split at h
  · simp at h
  · rename_i i3 htag
    split at h
    · simp at h
    · rename_i hws
      split at h
      · simp at h
      · rename_i i4 value hval
        simp only [Except.ok.injEq, Prod.mk.injEq] at h
        refine ⟨i3, i4, htag, by simpa using hws, ?_, ?_, ?_⟩
        · rw [hval, ← h.2]
        · rw [← h.1]
        · rw [← h.2]

/-! Lockstep of the targeted lookup with the exact build loop: when the
searched key is bound by no pair, the lookup consumes the document
exactly as the builder does and ends with the `Fail` error. -/

theorem nomLoop_exact_notfound (isAlnum : Char → Bool) (fuel : Nat) :
    ∀ head ps k, buildLoopExact isAlnum head fuel = .ok ps →
      (∀ p ∈ ps, ¬ p.1 = k) →
      nomLoop isAlnum head k fuel = .error .Fail := by
  induction fuel with
  | zero => intro head ps k h _; simp [buildLoopExact] at h
  | succ fuel ih =>
    intro head ps k h hnot
    simp only [buildLoopExact] at h
    by_cases hemp : head.isEmpty = true
    · simp only [nomLoop]
      rw [if_pos hemp]
    · rw [if_neg hemp] at h
      split at h
      · simp at h
      · rename_i inp kv hpair
        split at h
        · simp at h
        · rename_i tl hrec
          simp only [Except.ok.injEq] at h
          subst h
          obtain ⟨i3, htag, hws, hval, hkey⟩ := pairExact_elim hpair
          have heat : eat_value i3 = .ok (inp, ()) := by
            rw [eat_value_eq_parse_value, hval]
            rfl
          have hkne : ¬ kv.1 = k := hnot kv (List.mem_cons_self kv tl)
          have hcond :
              ¬ ((multispace0 head).takeWhile (isKeyChar isAlnum) = k) := by
            rw [← hkey]
            exact hkne
          simp only [nomLoop, if_neg hemp, takeWhileC, htag, if_neg hcond,
            heat]
          exact ih inp tl k hrec
            (fun p hp => hnot p (List.mem_cons_of_mem kv hp))

/-! Lockstep of the targeted lookup with the strict build loop: the
lookup returns the value of the first pair bound to the searched
key. -/

theorem nomLoop_strict_found (isAlnum : Char → Bool) (fuel : Nat) :
    ∀ head ps k v, buildLoopStrict isAlnum head fuel = .ok ps →
      firstVal ps k = some v →
      ∃ rr, nomLoop isAlnum head k fuel = .ok (rr, v) := by
  induction fuel with
  | zero => intro head ps k v h _; simp [buildLoopStrict] at h
  | succ fuel ih =>
    intro head ps k v h hfind
    simp only [buildLoopStrict] at h
    by_cases hemp : head.isEmpty = true
    · rw [if_pos hemp] at h
      simp only [Except.ok.injEq] at h
      subst h
      simp [firstVal] at hfind
    · rw [if_neg hemp] at h
      split at h
      · simp at h
      · rename_i inp kv hpair
        split at h
        · simp at h
        · rename_i tl hrec
          simp only [Except.ok.injEq] at h
          subst h
          obtain ⟨i3, i4, htag, hws, hval, hinp, hkey⟩ :=
            pairStrict_elim hpair
          by_cases hk : kv.1 = k
          · have hv : kv.2 = v := by
              unfold firstVal at hfind
              rw [List.find?_cons] at hfind
              have hb : (kv.1 == k) = true := by simpa using hk
              rw [hb] at hfind
              simpa using hfind
            refine ⟨i3, ?_⟩
            have hcond :
                (multispace0 head).takeWhile (isKeyChar isAlnum) = k := by
              rw [← hkey]
              exact hk
            simp only [nomLoop, if_neg hemp, takeWhileC, htag,
              if_pos hcond, hval]
            rw [hv]
          · have hfind2 : firstVal tl k = some v := by
              unfold firstVal at hfind ⊢
              rw [List.find?_cons] at hfind
              have hb : (kv.1 == k) = false := by simpa using hk
              rw [hb] at hfind
              exact hfind
            have htlne : tl ≠ [] := by
              intro hnil
              rw [hnil] at hfind2
              simp [firstVal] at hfind2
            have hinpne : inp ≠ [] := by
              intro hnil
              rw [hnil] at hrec
              cases fuel with
              | zero => simp [buildLoopStrict] at hrec
              | succ fuel =>
                simp [buildLoopStrict] at hrec
                exact htlne hrec
            obtain ⟨rr, hnl⟩ := ih inp tl k v hrec hfind2
            refine ⟨rr, ?_⟩
            have hcond :
                ¬ ((multispace0 head).takeWhile (isKeyChar isAlnum) = k) := by
              rw [← hkey]
              exact hk
            have heat : eat_value i3 = .ok (i4, ()) := by
              rw [eat_value_eq_parse_value, hval]
              rfl
            simp only [nomLoop, if_neg hemp, takeWhileC, htag,
              if_neg hcond, heat]
            rw [nomLoop_ms isAlnum fuel k i4 (by rw [← hinp]; exact hinpne),
              ← hinp]
            exact hnl

theorem dropWhile_eq_self_of_takeWhile_nil {p : Char → Bool} {l : RStr}
    (h : l.takeWhile p = []) : l.dropWhile p = l := by
  cases l with
  | nil => rfl
  | cons c t =>
    rw [List.takeWhile_cons] at h
    by_cases hc : p c = true
    · rw [if_pos hc] at h
      simp at h
    · rw [List.dropWhile_cons, if_neg hc]

/-! Claim theorems. -/

/-- Claim C10: for every input, the skip path `eat_value` of the
targeted lookup behaves structurally like the capturing reader
`parse_value`: it is exactly `parse_value` with the output discarded,
so both succeed on the same inputs, fail with the same error kinds,
and leave the identical remaining input. -/
theorem claimC10 : ∀ input : RStr,
    eat_value input = (parse_value input).map (fun p => (p.1, ())) ∧
    (∀ e, parse_value input = .error e → eat_value input = .error e) ∧
    (∀ r v, parse_value input = .ok (r, v) → eat_value input = .ok (r, ())) := by
  intro input
  have heq := eat_value_eq_parse_value input
  refine ⟨heq, ?_, ?_⟩
  · intro e he
    rw [heq, he]
    rfl
  · intro r v hv
    rw [heq, hv]
    rfl

/-- Claim C4: a quoted value scanned by the value reader is the
`Str` (borrowed) variant, equal to the entire span between the opening
and closing quote (exclusive), exactly when no backslash occurs before
the closing quote; when at least one backslash occurs it is the
`String` (owned) variant; each scan yields exactly one of the two. -/
theorem claimC4 (input rest : RStr) (v : StringOrStr)
    (h : quoted_value input = .ok (rest, v)) :
    (∃ s, v = .Str s ∧ input = '"' :: (s ++ '"' :: rest) ∧
      '\\' ∉ s ∧ '"' ∉ s) ∨
    (∃ o raw, v = .String o ∧ input = '"' :: (raw ++ '"' :: rest) ∧
      '\\' ∈ raw) := by
  cases input with
  | nil => simp [quoted_value, tagChar] at h
  | cons c body =>
    by_cases hc : c = '"'
    · subst hc
      simp only [quoted_value,
        show tagChar '"' ('"' :: body) = .ok body from by simp [tagChar]] at h
      cases v with
      | Str s =>
        left
        obtain ⟨hdecomp, hmem⟩ :=
          quotedLoop_none_borrowed (body.length + 1) body rest s h
        exact ⟨s, rfl, by rw [← hdecomp],
          fun hin => (hmem '\\' hin).1 rfl,
          fun hin => (hmem '"' hin).2 rfl⟩
      | String o =>
        right
        obtain ⟨raw, hdecomp, hbs⟩ :=
          quotedLoop_none_owned (body.length + 1) body rest o h
        exact ⟨o, raw, rfl, by rw [← hdecomp], hbs⟩
    · simp [quoted_value, tagChar, hc] at h

/-- Claim C4 witness: a concrete borrowed scan. -/
theorem claimC4_witness :
    quoted_value ("\"ab\"xy".toList) = .ok ("xy".toList, .Str ("ab".toList)) ∧
    ((∃ s, StringOrStr.Str ("ab".toList) = .Str s ∧
        ("\"ab\"xy".toList : RStr) = '"' :: (s ++ '"' :: "xy".toList) ∧
        '\\' ∉ s ∧ '"' ∉ s) ∨
     (∃ o raw, StringOrStr.Str ("ab".toList) = .String o ∧
        ("\"ab\"xy".toList : RStr) = '"' :: (raw ++ '"' :: "xy".toList) ∧
        '\\' ∈ raw)) :=
  ⟨by decide, claimC4 ("\"ab\"xy".toList) ("xy".toList)
    (.Str ("ab".toList)) (by decide)⟩

/-- Claim C5: inside a quoted value every backslash contributes
exactly the literal following character: the quoted scanner computes
precisely the reference escape grammar `quotedSpec`, in which
backslash-n yields the letter n and an escaped quote a literal quote;
both drivers read quoted values through this one scanner, as the
concrete build and lookup runs illustrate. -/
theorem claimC5 :
    (∀ body : RStr, viewT (quoted_value ('"' :: body)) = quotedSpec body) ∧
    ParserNew latin1Alphanumeric ("k=\"a\\nb\"".toList) =
      .ok [("k".toList, .String ("anb".toList))] ∧
    parseLookup latin1Alphanumeric ("k=\"a\\nb\"".toList) ("k".toList) =
      .ok (.String ("anb".toList)) ∧
    ParserNew latin1Alphanumeric ("k=\"va\\\"lue\"".toList) =
      .ok [("k".toList, .String ("va\"lue".toList))] := by
  refine ⟨?_, by decide, by decide, by decide⟩
  intro body
  have hq : quoted_value ('"' :: body) =
      quotedLoop none body (body.length + 1) := by
    simp [quoted_value, tagChar]
  rw [hq]
  exact quotedLoop_eq_quotedSpec body.length body (Nat.le_refl _)
    (body.length + 1) (Nat.lt_succ_self _)

/-- Claim C6: when a quoted value's opening quote is never matched by
a closing quote before the buffer ends (the escape grammar accepts no
prefix, including a buffer ending right after a backslash), the scan
fails with the `Eof` error — the unterminated-quoted-value failure —
on the capturing path and the skip path alike, and both `Parser::new`
and the targeted lookup fail on the document `quoted="foo`. -/
theorem claimC6 :
    (∀ (body : RStr) (fuel : Nat), body.length < fuel →
      quotedSpec body = none →
      quotedLoop none body fuel = .error .Eof ∧
      eatQuotedLoop body fuel = .error .Eof) ∧
    quoted_value ("\"ab\\".toList) = .error .Eof ∧
    ParserNew latin1Alphanumeric ("quoted=\"foo".toList) = .error .Eof ∧
    parseLookup latin1Alphanumeric ("quoted=\"foo".toList)
      ("quoted".toList) = .error (.Other .Eof) ∧
    parseLookup latin1Alphanumeric ("quoted=\"foo".toList)
      ("nope".toList) = .error (.Other .Eof) := by
  refine ⟨?_, by decide, by decide, by decide, by decide⟩
  intro body fuel hfuel hspec
  have hq := quotedLoop_unterminated body.length body fuel none
    (Nat.le_refl _) hfuel hspec
  refine ⟨hq, ?_⟩
  rw [eatQuotedLoop_eq_quotedLoop fuel none body, hq]
  rfl

/-- Claim C6 witness: the body `foo` never closes its quote. -/
theorem claimC6_witness :
    (("foo".toList : RStr).length < 4 ∧ quotedSpec ("foo".toList) = none) ∧
    (quotedLoop none ("foo".toList) 4 = .error .Eof ∧
     eatQuotedLoop ("foo".toList) 4 = .error .Eof) :=
  ⟨⟨by decide, by decide⟩, claimC6.1 ("foo".toList) 4 (by decide) (by decide)⟩

/-- Claim C3: `get` after `build` returns the value of the last pair
of the document bound to the key, and nothing when no pair is: the
builder inserts the document's pairs in order into a map whose
insertion overwrites, so lookup sees exactly the last occurrence. -/
theorem claimC3 (isAlnum : Char → Bool) (doc : RStr) (k : RStr)
    (ps : List (RStr × StringOrStr))
    (hps : docPairs isAlnum doc = .ok ps) :
    ∃ m, ParserNew isAlnum doc = .ok m ∧
      ParserGet m k = (lastVal ps k).map StringOrStr.asRef := by
  simp only [docPairs] at hps
  refine ⟨ps.foldl (fun m kv => hmInsert m kv.1 kv.2) [], ?_, ?_⟩
  · simp only [ParserNew, hps]
  · unfold ParserGet
    rw [hmGet_foldl]
    have hnil : hmGet [] k = none := rfl
    rw [hnil, Option.or_none]

/-- Claim C3 witness: duplicate key, the later occurrence wins. -/
theorem claimC3_witness :
    docPairs latin1Alphanumeric ("a=1 b=2 a=3".toList) =
      .ok [("a".toList, .Str ("1".toList)), ("b".toList, .Str ("2".toList)),
        ("a".toList, .Str ("3".toList))] ∧
    (∃ m, ParserNew latin1Alphanumeric ("a=1 b=2 a=3".toList) = .ok m ∧
      ParserGet m ("a".toList) =
        (lastVal [("a".toList, .Str ("1".toList)),
          ("b".toList, .Str ("2".toList)),
          ("a".toList, .Str ("3".toList))] ("a".toList)).map
            StringOrStr.asRef) :=
  ⟨by decide, claimC3 latin1Alphanumeric ("a=1 b=2 a=3".toList)
    ("a".toList) _ (by decide)⟩

/-- Claim C1 (amended): for a document in which no `=` is directly
followed by whitespace (strict documents, which the builder also
accepts) and a key bound by some pair, `lookup_one` succeeds and
returns the value of the first pair bound to that key; when the key is
bound exactly once this equals the text of `get(build(doc), k)`.  (As
stated the claim is false: the lookup reads the value without skipping
whitespace after `=`, and on duplicate keys it returns the first
occurrence while `get` returns the last.) -/
theorem claimC1 (isAlnum : Char → Bool) (doc k : RStr) (v : StringOrStr)
    (ps : List (RStr × StringOrStr))
    (hps : strictPairs isAlnum doc = .ok ps)
    (hfind : firstVal ps k = some v) :
    parseLookup isAlnum doc k = .ok v ∧
    (countKey ps k = 1 →
      ∃ m, ParserNew isAlnum doc = .ok m ∧
        ParserGet m k = some v.asRef) := by
  simp only [strictPairs] at hps
  obtain ⟨rr, hnl⟩ := nomLoop_strict_found isAlnum (doc.length + 1)
    (trimStart doc) ps k v hps hfind
  constructor
  · simp only [parseLookup, nom_parse, hnl]
  · intro hcount
    have hbuild := buildLoopStrict_to_buildLoop isAlnum (doc.length + 1)
      (trimStart doc) ps hps
    refine ⟨ps.foldl (fun m kv => hmInsert m kv.1 kv.2) [], ?_, ?_⟩
    · simp only [ParserNew, hbuild]
    · unfold ParserGet
      rw [hmGet_foldl]
      have hnil : hmGet [] k = none := rfl
      rw [hnil, Option.or_none,
        lastVal_eq_firstVal_of_countKey_one ps k hcount, hfind]
      rfl

/-- Claim C1 witness: a strict two-pair document. -/
theorem claimC1_witness :
    (strictPairs latin1Alphanumeric ("a=1 b=2".toList) =
      .ok [("a".toList, .Str ("1".toList)), ("b".toList, .Str ("2".toList))] ∧
     firstVal [("a".toList, .Str ("1".toList)),
       ("b".toList, .Str ("2".toList))] ("b".toList) =
       some (.Str ("2".toList))) ∧
    (parseLookup latin1Alphanumeric ("a=1 b=2".toList) ("b".toList) =
      .ok (.Str ("2".toList)) ∧
     (countKey [("a".toList, .Str ("1".toList)),
        ("b".toList, .Str ("2".toList))] ("b".toList) = 1 →
       ∃ m, ParserNew latin1Alphanumeric ("a=1 b=2".toList) = .ok m ∧
         ParserGet m ("b".toList) =
           some (StringOrStr.Str ("2".toList)).asRef)) :=
  ⟨⟨by decide, by decide⟩,
    claimC1 latin1Alphanumeric ("a=1 b=2".toList) ("b".toList)
      (.Str ("2".toList))
      [("a".toList, .Str ("1".toList)), ("b".toList, .Str ("2".toList))]
      (by decide) (by decide)⟩

/-- Claim C1 counterexample: on `key = value` (whitespace after the
`=`), build accepts and binds `value`, yet the lookup returns the
empty value because it does not skip whitespace after `=`; and on
`a=1 a=2` the lookup returns the first occurrence while `get` returns
the last — so lookup and `get(build)` differ on both inputs. -/
theorem claimC1_counterexample :
    ParserNew latin1Alphanumeric ("key = value".toList) =
      .ok [("key".toList, .Str ("value".toList))] ∧
    parseLookup latin1Alphanumeric ("key = value".toList) ("key".toList) =
      .ok (.Str []) ∧
    ParserGet [("key".toList, .Str ("value".toList))] ("key".toList) =
      some ("value".toList) ∧
    ¬ (([] : RStr) = "value".toList) ∧
    ParserNew latin1Alphanumeric ("a=1 a=2".toList) =
      .ok [("a".toList, .Str ("2".toList))] ∧
    parseLookup latin1Alphanumeric ("a=1 a=2".toList) ("a".toList) =
      .ok (.Str ("1".toList)) ∧
    ¬ (("1".toList : RStr) = "2".toList) := by
  decide

/-- Claim C2 (amended): for a document accepted by the exact scan (no
whitespace directly after any `=` and no trailing whitespace — such a
document is also accepted by build) and a key bound by no pair, the
lookup consumes the document in lockstep with the builder, reaches the
end of input, and fails with `KeyNotFound`.  (As stated the claim is
false: trailing whitespace makes the lookup fail with the `=`-tag
error instead, and whitespace after an `=` can even make the lookup
succeed for a key the builder never binds.) -/
theorem claimC2 (isAlnum : Char → Bool) (doc k : RStr)
    (ps : List (RStr × StringOrStr))
    (hps : exactPairs isAlnum doc = .ok ps)
    (habs : ∀ p ∈ ps, ¬ p.1 = k) :
    (∃ m, ParserNew isAlnum doc = .ok m) ∧
    parseLookup isAlnum doc k = .error .KeyNotFound := by
  simp only [exactPairs] at hps
  have hstrict : buildLoopStrict isAlnum (trimStart doc)
      (doc.length + 1) = .ok ps := by
    have hh := buildLoopExact_to_strict isAlnum (doc.length + 1)
      (trimStart doc) ps hps
    rwa [multispace0_trimStart] at hh
  have hbuild := buildLoopStrict_to_buildLoop isAlnum (doc.length + 1)
    (trimStart doc) ps hstrict
  constructor
  · exact ⟨ps.foldl (fun m kv => hmInsert m kv.1 kv.2) [],
      by simp only [ParserNew, hbuild]⟩
  · have hnl := nomLoop_exact_notfound isAlnum (doc.length + 1)
      (trimStart doc) ps k hps habs
    simp only [parseLookup, nom_parse, hnl]

/-- Claim C2 witness: the key `b` is absent from `a=1`. -/
theorem claimC2_witness :
    (exactPairs latin1Alphanumeric ("a=1".toList) =
      .ok [("a".toList, .Str ("1".toList))] ∧
     (∀ p ∈ [(("a".toList : RStr), StringOrStr.Str ("1".toList))],
       ¬ p.1 = ("b".toList : RStr))) ∧
    ((∃ m, ParserNew latin1Alphanumeric ("a=1".toList) = .ok m) ∧
     parseLookup latin1Alphanumeric ("a=1".toList) ("b".toList) =
       .error .KeyNotFound) :=
  ⟨⟨by decide, by decide⟩,
    claimC2 latin1Alphanumeric ("a=1".toList) ("b".toList)
      [("a".toList, .Str ("1".toList))] (by decide) (by decide)⟩

/-- Claim C2 counterexample: `a=1 ` (trailing space) is accepted by
build and does not contain `b`, yet the lookup fails with the tag
error, not `KeyNotFound`; and on `a= k=1` (whitespace after `=`) the
lookup even succeeds for the absent key `k`. -/
theorem claimC2_counterexample :
    ParserNew latin1Alphanumeric ("a=1 ".toList) =
      .ok [("a".toList, .Str ("1".toList))] ∧
    parseLookup latin1Alphanumeric ("a=1 ".toList) ("b".toList) =
      .error (.Other .Tag) ∧
    ¬ ((LookupErr.Other NomErr.Tag) = LookupErr.KeyNotFound) ∧
    ParserNew latin1Alphanumeric ("a= k=1".toList) =
      .ok [("a".toList, .Str ("k=1".toList))] ∧
    parseLookup latin1Alphanumeric ("a= k=1".toList) ("k".toList) =
      .ok (.Str ("1".toList)) := by
  decide

/-- Claim C7 (amended): when the key run at a pair position is empty,
the pair parse fails — with the missing-`=` tag error, the only error
the code raises there — exactly when the next character is not `=`;
there is no dedicated malformed-key error, and an empty key directly
followed by `=` is accepted, so `build("=value")` succeeds and binds
the empty key.  (As stated the claim is false: `build("=value")`
succeeds.) -/
theorem claimC7 :
    (∀ (isAlnum : Char → Bool) (input : RStr),
      (multispace0 input).takeWhile (isKeyChar isAlnum) = [] →
      (multispace0 input).head? ≠ some '=' →
      parse_one_key_value isAlnum input = .error .Tag) ∧
    ParserNew latin1Alphanumeric ("=value".toList) =
      .ok [([], .Str ("value".toList))] ∧
    parseLookup latin1Alphanumeric ("=value".toList) [] =
      .ok (.Str ("value".toList)) ∧
    ParserNew latin1Alphanumeric (";foo=bar".toList) = .error .Tag := by
  refine ⟨?_, by decide, by decide, by decide⟩
  intro isAlnum input hkey hhead
  have hdrop : (multispace0 input).dropWhile (isKeyChar isAlnum) =
      multispace0 input :=
    dropWhile_eq_self_of_takeWhile_nil hkey
  have htag : tagChar '=' (multispace0 input) = .error .Tag := by
    cases hm : multispace0 input with
    | nil => rfl
    | cons c t =>
      rw [hm] at hhead
      simp only [List.head?] at hhead
      simp only [tagChar]
      rw [if_neg]
      intro hce
      exact hhead (by rw [hce])
  simp only [parse_one_key_value, takeWhileC, hdrop, multispace0_idem, htag]

/-- Claim C7 witness: at `;foo=bar` the key run is empty and the next
character is `;`, so the pair parse fails with the tag error. -/
theorem claimC7_witness :
    ((multispace0 (";foo=bar".toList)).takeWhile
        (isKeyChar latin1Alphanumeric) = [] ∧
     (multispace0 (";foo=bar".toList)).head? ≠ some '=') ∧
    parse_one_key_value latin1Alphanumeric (";foo=bar".toList) =
      .error .Tag :=
  ⟨⟨by decide, by decide⟩,
    claimC7.1 latin1Alphanumeric (";foo=bar".toList)
      (by decide) (by decide)⟩

/-- Claim C7 counterexample: `build("=value")` succeeds, binding the
empty key, where the claim requires it to fail. -/
theorem claimC7_counterexample :
    ParserNew latin1Alphanumeric ("=value".toList) =
      .ok [([], .Str ("value".toList))] ∧
    ParserGet [(([] : RStr), StringOrStr.Str ("value".toList))] [] =
      some ("value".toList) := by
  decide

/-- Claim C8 (amended): the key accepted by the scanner is exactly the
longest prefix run of characters satisfying the code's key predicate —
Rust `char::is_alphanumeric` (all Unicode alphanumerics, not only
ASCII) together with `-` and `_` — and every key of every accepted
document consists of such characters only.  Proved uniformly for an
arbitrary alphanumeric predicate `isAlnum`, so instantiating it with
the real Unicode `char::is_alphanumeric` yields the statement about
the program, covering non-Latin-1 keys such as `Ω`.  (As stated the
claim is false: the alphabet is not limited to `A-Z`, `a-z`, `0-9`,
`-`, `_`; a non-ASCII letter such as `é` is accepted in a key.) -/
theorem claimC8 :
    (∀ (isAlnum : Char → Bool) (input r : RStr) (kv : RStr × StringOrStr),
      parse_one_key_value isAlnum input = .ok (r, kv) →
      kv.1 = (multispace0 input).takeWhile (isKeyChar isAlnum) ∧
        ∀ c ∈ kv.1, isKeyChar isAlnum c = true) ∧
    (∀ (isAlnum : Char → Bool) (fuel : Nat) (head : RStr)
        (ps : List (RStr × StringOrStr)),
      buildLoop isAlnum head fuel = .ok ps →
      ∀ p ∈ ps, ∀ c ∈ p.1, isKeyChar isAlnum c = true) :=
  ⟨parse_one_key_value_key,
    fun isAlnum fuel => buildLoop_keys isAlnum fuel⟩

/-- Claim C8 witness: the pair `Ω=1` parsed with an alphanumeric
predicate that, like Rust `char::is_alphanumeric`, accepts `Ω` —
the parametric theorem covers keys outside Latin-1. -/
theorem claimC8_witness :
    parse_one_key_value (fun c => latin1Alphanumeric c || c = 'Ω')
      ("Ω=1".toList) = .ok ([], ("Ω".toList, .Str ("1".toList))) ∧
    ((("Ω".toList, StringOrStr.Str ("1".toList)).1 : RStr) =
        (multispace0 ("Ω=1".toList)).takeWhile
          (isKeyChar (fun c => latin1Alphanumeric c || c = 'Ω')) ∧
      ∀ c ∈ (("Ω".toList, StringOrStr.Str ("1".toList)).1 : RStr),
        isKeyChar (fun c => latin1Alphanumeric c || c = 'Ω') c = true) :=
  ⟨by decide, claimC8.1 (fun c => latin1Alphanumeric c || c = 'Ω')
    ("Ω=1".toList) [] ("Ω".toList, .Str ("1".toList)) (by decide)⟩

/-- Claim C8 counterexample: the non-ASCII letter `é` is outside the
spec's `[A-Za-z0-9_-]` alphabet but is accepted in a key. -/
theorem claimC8_counterexample :
    ParserNew latin1Alphanumeric ("é=1".toList) =
      .ok [("é".toList, .Str ("1".toList))] ∧
    specKeyChar 'é' = false ∧
    isKeyChar latin1Alphanumeric 'é' = true := by
  decide

/-- Claim C9 (amended): an unquoted value is parsed as empty only when
the character at the value position is non-ASCII Unicode whitespace;
a `=` directly followed by end of input fails with the `Eof` error
(the value reader requires at least one character), and a `=` followed
by ASCII whitespace yields the next non-whitespace run, not an empty
value.  (As stated the claim is false: `build("a=")` and
`lookup_one("a=", "a")` both fail.) -/
theorem claimC9 :
    parse_value ([] : RStr) = .error .Eof ∧
    ParserNew latin1Alphanumeric ("a=".toList) = .error .Eof ∧
    parseLookup latin1Alphanumeric ("a=".toList) ("a".toList) =
      .error (.Other .Eof) ∧
    ParserNew latin1Alphanumeric ("a= b".toList) =
      .ok [("a".toList, .Str ("b".toList))] ∧
    (∀ rest : RStr, parse_value (' ' :: rest) =
      .ok (' ' :: rest, .Str [])) ∧
    parseLookup latin1Alphanumeric ("a= ".toList) ("a".toList) =
      .ok (.Str []) := by
  refine ⟨by decide, by decide, by decide, by decide, ?_, by decide⟩
  intro rest
  have hws : rustIsWhitespace ' ' = true := by decide
  simp only [parse_value, take1]
  rw [if_neg (by decide : ¬ (' ' = '"'))]
  simp [unquoted_value, takeWhileC, hws]

/-- Claim C9 counterexample: with `=` directly followed by end of
input, both build and lookup fail instead of producing an empty
value. -/
theorem claimC9_counterexample :
    ParserNew latin1Alphanumeric ("a=".toList) = .error .Eof ∧
    parseLookup latin1Alphanumeric ("a=".toList) ("a".toList) =
      .error (.Other .Eof) := by
  decide

/-- Claim C10 witness: a concrete unquoted skip. -/
theorem claimC10_witness :
    eat_value ("x y".toList) =
      (parse_value ("x y".toList)).map (fun p => (p.1, ())) ∧
    eat_value ("x y".toList) = .ok (" y".toList, ()) :=
  ⟨(claimC10 ("x y".toList)).1,
    (claimC10 ("x y".toList)).2.2 (" y".toList) (.Str ("x".toList))
      (by decide)⟩
